import Mathlib

/-!
Verification of the cpp-url percent-encoding, URI and URL components.

This file gives a shallow embedding of the core of the `citizenfx/cpp-url`
repository and proves or refutes the frozen specification claims about it.

The embedding covers:
* the skyr percent-encoding classifier and encoder
  (`include/skyr/v1/percent_encoding/percent_encoded_char.hpp`);
* the RFC-3986 `uri` component model, its accessors, `uri::resolve` and
  `uri::normalize` (`src/uri.cpp`);
* the WHATWG `url` surface: `url_result`, the base-relative constructor and
  the query pair iterator (`include/network/uri/detail/uri_parse.hpp`).

Machine characters are modelled as follows: the skyr encoder operates on raw
bytes (`Fin 256`) and reproduces the C++ `signed char` comparisons through an
explicit signed reinterpretation; the URI layer models `std::string` values as
`List Char` restricted to the byte-sized code points the library manipulates.
-/

namespace Skyr

/-- A raw byte, the value of a C++ `char` reinterpreted as `unsigned char`. -/
abbrev Byte := Fin 256

/-- The value of the byte as C++ `signed char` (`char` is signed on the
reference platforms): bytes `0x80`-`0xFF` are negative. -/
def signedVal (b : Byte) : Int :=
  if b.val < 128 then (b.val : Int) else (b.val : Int) - 256

/-- `static_cast<unsigned>(byte)` on the signed `char`: conversion to
`unsigned int`, i.e. the value modulo `2^32`. -/
def unsignedCast (b : Byte) : Nat :=
  ((signedVal b) % (2 ^ 32 : Int)).toNat

/-- `details::hex_to_letter`: maps a nibble value `0`-`9` to `'0'`-`'9'`,
`0xa`-`0xf` to `'A'`-`'F'`, anything else to itself.  The result is the
character code of the hex digit. -/
def hex_to_letter (b : Nat) : Nat :=
  if b < 10 then b + 48
  else if 10 ≤ b ∧ b < 16 then b - 10 + 65
  else b

/-- `details::is_c0_control_byte`: `(byte <= '\x1f') || (byte > '\x7e')`
on the signed `char` value. -/
def is_c0_control_byte (b : Byte) : Bool :=
  (signedVal b ≤ 0x1f) || (signedVal b > 0x7e)

/-- `details::is_fragment_byte`. -/
def is_fragment_byte (b : Byte) : Bool :=
  is_c0_control_byte b ||
  (signedVal b = 0x20) ||
  (signedVal b = 0x22) ||
  (signedVal b = 0x3c) ||
  (signedVal b = 0x3e) ||
  (signedVal b = 0x60)

/-- `details::is_path_byte`. -/
def is_path_byte (b : Byte) : Bool :=
  is_fragment_byte b ||
  (signedVal b = 0x23) ||
  (signedVal b = 0x3f) ||
  (signedVal b = 0x7b) ||
  (signedVal b = 0x7d)

/-- `details::is_userinfo_byte`. -/
def is_userinfo_byte (b : Byte) : Bool :=
  is_path_byte b ||
  (signedVal b = 0x2f) ||
  (signedVal b = 0x3a) ||
  (signedVal b = 0x3b) ||
  (signedVal b = 0x3d) ||
  (signedVal b = 0x40) ||
  (signedVal b = 0x5b) ||
  (signedVal b = 0x5c) ||
  (signedVal b = 0x5d) ||
  (signedVal b = 0x5e) ||
  (signedVal b = 0x7c)

/-- The `encode_set` enumeration. -/
inductive encode_set
  | none
  | c0_control
  | fragment
  | path
  | userinfo
deriving DecidableEq, Repr

/-- Membership of a byte in one of the named encode sets; the `none` set has
no membership predicate in the source (its `percent_encode_byte` branch
encodes unconditionally), we let it contain no byte. -/
def is_in_set (b : Byte) : encode_set → Bool
  | .none => false
  | .c0_control => is_c0_control_byte b
  | .fragment => is_fragment_byte b
  | .path => is_path_byte b
  | .userinfo => is_userinfo_byte b

/-- The contents of a `percent_encoded_char`: the byte codes of its
`impl_` string.  The encoding constructor builds
`['%', hex_to_letter((unsigned(byte) >> 4) & 0x0f), hex_to_letter(unsigned(byte) & 0x0f)]`;
the `no_encode` constructor builds `[byte]`. -/
def percent_encoded_char_encode (b : Byte) : List Nat :=
  [37,
   hex_to_letter ((unsignedCast b >>> 4) &&& 0x0f),
   hex_to_letter (unsignedCast b &&& 0x0f)]

/-- `percent_encoded_char(byte, no_encode())`: the single-byte form. -/
def percent_encoded_char_no_encode (b : Byte) : List Nat :=
  [b.val]

/-- `percent_encode_byte(char, Pred)`: encode iff the predicate holds. -/
def percent_encode_byte_pred (b : Byte) (pred : Byte → Bool) : List Nat :=
  if pred b then percent_encoded_char_encode b
  else percent_encoded_char_no_encode b

/-- `percent_encode_byte(char, encode_set)`: the `switch` over the set. -/
def percent_encode_byte (b : Byte) : encode_set → List Nat
  | .none => percent_encoded_char_encode b
  | .c0_control => percent_encode_byte_pred b is_c0_control_byte
  | .userinfo => percent_encode_byte_pred b is_userinfo_byte
  | .path => percent_encode_byte_pred b is_path_byte
  | .fragment => percent_encode_byte_pred b is_fragment_byte

/-- `percent_encoded_char::is_encoded()`: the impl string has size 3. -/
def is_encoded (l : List Nat) : Bool := l.length == 3

end Skyr

namespace NetworkUri

/-! ## Strings as byte lists

The `network::uri` layer manipulates `std::string` values whose characters
the library treats as ASCII bytes.  We model such a string as a `List Nat`
of character codes. -/

/-- Convert a Lean string literal to the byte-code list that models the
corresponding C++ string. -/
def strB (s : String) : List Nat := s.toList.map Char.toNat

/-- ASCII hexadecimal digit, either case (`std::isxdigit`, classic locale). -/
def isHexN (c : Nat) : Bool :=
  (48 ≤ c && c ≤ 57) || (65 ≤ c && c ≤ 70) || (97 ≤ c && c ≤ 102)

/-- ASCII decimal digit or uppercase hexadecimal digit. -/
def isUpperHexN (c : Nat) : Bool :=
  (48 ≤ c && c ≤ 57) || (65 ≤ c && c ≤ 70)

/-- The numeric value of a hexadecimal digit (0 on non-digits). -/
def hexValN (c : Nat) : Nat :=
  if 48 ≤ c && c ≤ 57 then c - 48
  else if 65 ≤ c && c ≤ 70 then c - 55
  else if 97 ≤ c && c ≤ 102 then c - 87
  else 0

/-- ASCII uppercase letter test. -/
def isUpperAlphaN (c : Nat) : Bool := 65 ≤ c && c ≤ 90

/-- ASCII `std::tolower` in the classic locale. -/
def toLowerN (c : Nat) : Nat := if 65 ≤ c && c ≤ 90 then c + 32 else c

/-- ASCII `std::toupper` in the classic locale. -/
def toUpperN (c : Nat) : Nat := if 97 ≤ c && c ≤ 122 then c - 32 else c

/-- The byte value encoded by the percent triple `%xy`. -/
def tripValN (x y : Nat) : Nat := hexValN x * 16 + hexValN y

/-- RFC 3986 unreserved byte: ASCII alpha, digit, `-`, `.`, `_`, `~`
(spec §4.4). -/
def unreservedN (v : Nat) : Bool :=
  (65 ≤ v && v ≤ 90) || (97 ≤ v && v ≤ 122) || (48 ≤ v && v ≤ 57) ||
  (v = 45) || (v = 46) || (v = 95) || (v = 126)

/-- Lowercasing of a whole component, modelling `to_lower` in `uri.cpp`
(a `std::transform` with `std::tolower`). -/
def lower_str (s : List Nat) : List Nat := s.map toLowerN

/-- Modelled from the spec: the definition of `detail::percent_encoded_to_upper`
(`detail/uri_percent_encode.hpp`) is not under `src/`.  Spec §4.4 prescribes
"uppercase the hex digits of every percent triple".  We model it as the
left-to-right scan that uppercases the two hex digits after each `%` that
begins a valid triple; a `%` that does not begin a valid triple is passed
through unchanged together with the two bytes after it, as are all other
bytes. -/
def pct_upper : List Nat → List Nat
  | [] => []
  | c :: rest =>
    if c = 37 then
      match rest with
      | x :: y :: rest2 =>
        if isHexN x && isHexN y then 37 :: toUpperN x :: toUpperN y :: pct_upper rest2
        else 37 :: x :: y :: pct_upper rest2
      | _ => 37 :: rest
    else c :: pct_upper rest

/-- Modelled from the spec: the definition of
`detail::decode_encoded_unreserved_chars` (`detail/uri_normalize.hpp`) is not
under `src/`.  Spec §4.4 prescribes "decode every percent triple that encodes
an unreserved byte", and §4.1 describes the decoding scan: "scans left to
right; every `%HH` triple with valid hex is replaced by its byte value;
invalid triples and all other bytes are passed through unchanged".  We model
it as the left-to-right scan that replaces each valid triple with an
unreserved value by that value, passes other valid triples through as
triples, and passes invalid triples and all other bytes through unchanged. -/
def decode_unreserved : List Nat → List Nat
  | [] => []
  | c :: rest =>
    if c = 37 then
      match rest with
      | x :: y :: rest2 =>
        if isHexN x && isHexN y then
          if unreservedN (tripValN x y) then tripValN x y :: decode_unreserved rest2
          else 37 :: x :: y :: decode_unreserved rest2
        else 37 :: x :: y :: decode_unreserved rest2
      | _ => 37 :: rest
    else c :: decode_unreserved rest

/-! ## Path splitting and dot-segment removal -/

/-- Split a path into its `/`-separated segments (47 is `/`). -/
def splitSlash : List Nat → List (List Nat)
  | [] => [[]]
  | c :: rest =>
    if c = 47 then [] :: splitSlash rest
    else
      match splitSlash rest with
      | s :: ss => (c :: s) :: ss
      | [] => [[c]]

/-- Join segments back with `/` separators. -/
def joinSlash : List (List Nat) → List Nat
  | [] => []
  | [s] => s
  | s :: rest => s ++ 47 :: joinSlash rest

/-- A single-dot segment: `.` or `%2e` (case-insensitive), spec §4.3. -/
def is_dot_seg (s : List Nat) : Bool :=
  s = strB "." || s = strB "%2e" || s = strB "%2E"

/-- A double-dot segment: `..` or its percent-encoded equivalents,
spec §4.3. -/
def is_dot_dot_seg (s : List Nat) : Bool :=
  s = strB ".." || s = strB ".%2e" || s = strB ".%2E" ||
  s = strB "%2e." || s = strB "%2E." ||
  s = strB "%2e%2e" || s = strB "%2e%2E" || s = strB "%2E%2e" || s = strB "%2E%2E"

/-- Pop the previous segment for a double dot; at the root (or with nothing
accumulated) do nothing (spec §4.3, glossary). -/
def drop_last_segment (acc : List (List Nat)) : List (List Nat) :=
  if acc = [] || acc = [[]] then acc else acc.dropLast

/-- One step of dot-segment removal over the segment list. -/
def dot_step (acc : List (List Nat)) (seg : List Nat) : List (List Nat) :=
  if is_dot_seg seg then acc
  else if is_dot_dot_seg seg then drop_last_segment acc
  else acc ++ [seg]

/-- Modelled from the spec: dot-segment removal over a parsed segment list
(glossary: "popping prior segments for `..` and dropping `.`"; §4.3: a final
dot segment leaves a trailing empty segment). -/
def remove_dot_segs_list (segs : List (List Nat)) : List (List Nat) :=
  let out := segs.foldl dot_step []
  match segs.getLast? with
  | some s => if is_dot_seg s || is_dot_dot_seg s then out ++ [[]] else out
  | none => out

/-- Modelled from the spec: `detail::remove_dot_segments`
(`detail/uri_resolve.hpp`) and `detail::normalize_path_segments`
(`detail/uri_normalize.hpp`) are not under `src/`; both apply the
dot-segment-removal algorithm of §4.3 to the path (§4.4, §4.5,
glossary). -/
def remove_dot_segments (p : List Nat) : List Nat :=
  joinSlash (remove_dot_segs_list (splitSlash p))

/-- The spec's name for the path-normalization helper used by
`uri::normalize`; same dot-segment removal algorithm (§4.4). -/
def normalize_path_segments (p : List Nat) : List Nat := remove_dot_segments p

/-! ## The component model of `network::uri`

`detail::uri_parts` holds, for each component, an optional range into the
serialized string; we model each present component directly by its
substring. -/

/-- The component model: `detail::uri_parts` together with its nested
`hier_part`, flattened. -/
structure uri_parts where
  scheme : Option (List Nat)
  user_info : Option (List Nat)
  host : Option (List Nat)
  port : Option (List Nat)
  path : Option (List Nat)
  query : Option (List Nat)
  fragment : Option (List Nat)
deriving DecidableEq, Repr

/-- A `uri_parts` value with no component present (a default-constructed
`uri`/`url`). -/
def empty_uri_parts : uri_parts :=
  ⟨none, none, none, none, none, none, none⟩

/-- `uri::has_scheme()`. -/
def has_scheme (u : uri_parts) : Bool := u.scheme.isSome

/-- `uri::has_user_info()`. -/
def has_user_info (u : uri_parts) : Bool := u.user_info.isSome

/-- `uri::has_host()`. -/
def has_host (u : uri_parts) : Bool := u.host.isSome

/-- `uri::has_port()`. -/
def has_port (u : uri_parts) : Bool := u.port.isSome

/-- `uri::has_path()`. -/
def has_path (u : uri_parts) : Bool := u.path.isSome

/-- `uri::has_query()`. -/
def has_query (u : uri_parts) : Bool := u.query.isSome

/-- `uri::has_fragment()`. -/
def has_fragment (u : uri_parts) : Bool := u.fragment.isSome

/-- `uri::scheme()`: `has_scheme() ? to_string_view(...) : string_view{}`. -/
def scheme_view (u : uri_parts) : List Nat := u.scheme.getD []

/-- `uri::user_info()`. -/
def user_info_view (u : uri_parts) : List Nat := u.user_info.getD []

/-- `uri::host()`. -/
def host_view (u : uri_parts) : List Nat := u.host.getD []

/-- `uri::port()`. -/
def port_view (u : uri_parts) : List Nat := u.port.getD []

/-- `uri::path()`. -/
def path_view (u : uri_parts) : List Nat := u.path.getD []

/-- `uri::query()`. -/
def query_view (u : uri_parts) : List Nat := u.query.getD []

/-- `uri::fragment()`. -/
def fragment_view (u : uri_parts) : List Nat := u.fragment.getD []

/-- `uri::has_authority()`: defined as `has_host()`. -/
def has_authority (u : uri_parts) : Bool := has_host u

/-- `uri::is_absolute()`: `has_scheme()`. -/
def is_absolute (u : uri_parts) : Bool := has_scheme u

/-- `uri::is_opaque()`: `is_absolute() && !has_authority()`. -/
def is_opaque_uri (u : uri_parts) : Bool := is_absolute u && !has_authority u

/-- Errors thrown by the library: `uri_builder_error` from
`uri::initialize`, `uri_syntax_error` from the parsing constructors. -/
inductive uri_error
  | uri_builder_error
  | uri_syntax_error
deriving DecidableEq, Repr

/-- The private `uri::initialize(scheme, user_info, host, port, path, query,
fragment)` of `uri.cpp`: serializes the parts and records their ranges.  At
the component level its observable behaviour is: throw `uri_builder_error`
when some of user-info/host/port is supplied without a host, or when a
scheme is supplied with neither authority nor path/query/fragment; prefix
the path with `/` when an authority is present and the path does not start
with `/`; otherwise keep all supplied components. -/
def uri_initialize (scheme user_info host port path query fragment :
    Option (List Nat)) : Except uri_error uri_parts :=
  if user_info.isSome || host.isSome || port.isSome then
    if host.isNone then .error .uri_builder_error
    else
      let path' :=
        match path with
        | some p => if p ≠ [] && p.head? ≠ some 47 then some (47 :: p) else some p
        | none => none
      .ok ⟨scheme, user_info, host, port, path', query, fragment⟩
  else
    if scheme.isSome && path.isNone && query.isNone && fragment.isNone then
      .error .uri_builder_error
    else
      .ok ⟨scheme, user_info, host, port, path, query, fragment⟩

/-- Modelled from the spec: `detail::merge_paths` (`detail/uri_resolve.hpp`)
is not under `src/`.  Spec §4.5: "merge `B.path` with `R.path` (replace the
last segment of `B.path` with `R.path`, then remove dot-segments)". -/
def up_to_last_slash (p : List Nat) : List Nat :=
  (p.reverse.dropWhile (fun c => c ≠ 47)).reverse

/-- Modelled from the spec (see `up_to_last_slash`): path merging for
relative references. -/
def merge_paths (base r : uri_parts) : List Nat :=
  remove_dot_segments (up_to_last_slash (path_view base) ++ path_view r)

/-- `uri::resolve(const uri &base)` from `uri.cpp`: the RFC 3986 §5.2.2
transform.  An absolute reference (opaque or not) is returned unchanged;
otherwise components are inherited from the base and the result is rebuilt
through `initialize` with `make_arg(base.scheme())` (always engaged) as the
scheme. -/
def uri_resolve (r base : uri_parts) : Except uri_error uri_parts :=
  if is_absolute r && !is_opaque_uri r then .ok r
  else if is_opaque_uri r then .ok r
  else
    let fragment := r.fragment
    if has_authority r then
      uri_initialize (some (scheme_view base)) r.user_info r.host r.port
        (r.path.map remove_dot_segments) r.query fragment
    else
      let path_query : Option (List Nat) × Option (List Nat) :=
        if !has_path r || path_view r = [] then
          (base.path, if has_query r then r.query else base.query)
        else if (path_view r).head? = some 47 then
          (some (remove_dot_segments (path_view r)), r.query)
        else
          (some (merge_paths base r), r.query)
      uri_initialize (some (scheme_view base)) base.user_info base.host
        base.port path_query.1 path_query.2 fragment

/-- The comparison level of `uri::normalize`; only `syntax_based`
triggers the normalization work. -/
inductive uri_comparison_level
  | string_based
  | syntax_based
deriving DecidableEq, Repr

/-- `uri::normalize(uri_comparison_level)` from `uri.cpp`, at the component
level.  For `syntax_based`: lower-case the scheme and the host, uppercase
the hex digits of every percent triple in the whole string, decode every
triple encoding an unreserved byte, then rebuild the path with
`normalize_path_segments`.  The whole-string passes act componentwise here:
the separators `:/?#@` are not hex digits and not produced by decoding (all
decoded bytes are unreserved), so triples never span two components and the
component split of the rebuilt string is unchanged. -/
def uri_normalize (level : uri_comparison_level) (u : uri_parts) : uri_parts :=
  match level with
  | .string_based => u
  | .syntax_based =>
    { scheme := u.scheme.map (fun s => decode_unreserved (pct_upper (lower_str s)))
      user_info := u.user_info.map (fun s => decode_unreserved (pct_upper s))
      host := u.host.map (fun s => decode_unreserved (pct_upper (lower_str s)))
      port := u.port.map (fun s => decode_unreserved (pct_upper s))
      path := u.path.map
        (fun s => normalize_path_segments (decode_unreserved (pct_upper s)))
      query := u.query.map (fun s => decode_unreserved (pct_upper s))
      fragment := u.fragment.map (fun s => decode_unreserved (pct_upper s)) }

/-! ## Well-formedness predicates for percent-encoded components

These predicates classify the byte strings that appear as components of
parsed URIs and drive the idempotence analysis of `uri_normalize`. -/

/-- Proper percent-encoding: scanning left to right, every `%` begins a
valid hex triple. -/
def ok_pct : List Nat → Bool
  | [] => true
  | c :: rest =>
    if c = 37 then
      match rest with
      | x :: y :: rest2 => isHexN x && isHexN y && ok_pct rest2
      | _ => false
    else ok_pct rest

/-- Properly percent-encoded with every triple's hex digits uppercase. -/
def wf_pct : List Nat → Bool
  | [] => true
  | c :: rest =>
    if c = 37 then
      match rest with
      | x :: y :: rest2 => isUpperHexN x && isUpperHexN y && wf_pct rest2
      | _ => false
    else wf_pct rest

/-- Fully normalized percent-encoding: every triple has uppercase hex
digits and encodes a byte that is not unreserved (so a further decoding
pass changes nothing). -/
def inert_pct : List Nat → Bool
  | [] => true
  | c :: rest =>
    if c = 37 then
      match rest with
      | x :: y :: rest2 =>
        isUpperHexN x && isUpperHexN y && !unreservedN (tripValN x y) &&
        inert_pct rest2
      | _ => false
    else inert_pct rest

/-- Proper percent-encoding in which no triple encodes an uppercase ASCII
letter — the hypothesis needed on lowercased components (scheme, host). -/
def host_ok : List Nat → Bool
  | [] => true
  | c :: rest =>
    if c = 37 then
      match rest with
      | x :: y :: rest2 =>
        isHexN x && isHexN y && !isUpperAlphaN (tripValN x y) && host_ok rest2
      | _ => false
    else host_ok rest

/-- `host_ok` with all plain bytes non-uppercase (the state after
lowercasing). -/
def host_low_ok : List Nat → Bool
  | [] => true
  | c :: rest =>
    if c = 37 then
      match rest with
      | x :: y :: rest2 =>
        isHexN x && isHexN y && !isUpperAlphaN (tripValN x y) &&
        host_low_ok rest2
      | _ => false
    else !isUpperAlphaN c && host_low_ok rest

/-- `wf_pct` strengthened for lowercased components: triples' hex digits
uppercase with values that are not uppercase letters, plain bytes
non-uppercase. -/
def host_wf_pct : List Nat → Bool
  | [] => true
  | c :: rest =>
    if c = 37 then
      match rest with
      | x :: y :: rest2 =>
        isUpperHexN x && isUpperHexN y && !isUpperAlphaN (tripValN x y) &&
        host_wf_pct rest2
      | _ => false
    else !isUpperAlphaN c && host_wf_pct rest

/-- Fully normalized lowercased component: uppercase-hex non-unreserved
triples, plain bytes non-uppercase. -/
def host_inert : List Nat → Bool
  | [] => true
  | c :: rest =>
    if c = 37 then
      match rest with
      | x :: y :: rest2 =>
        isUpperHexN x && isUpperHexN y && !unreservedN (tripValN x y) &&
        host_inert rest2
      | _ => false
    else !isUpperAlphaN c && host_inert rest

/-- Well-formedness test on an optional component. -/
def opt_ok (f : List Nat → Bool) : Option (List Nat) → Bool
  | none => true
  | some s => f s

/-- The domain of the amended idempotence claim: every component properly
percent-encoded, and no percent triple of the scheme or of the host
encoding an uppercase ASCII letter. -/
def uri_pct_ok (u : uri_parts) : Bool :=
  opt_ok host_ok u.scheme && opt_ok ok_pct u.user_info &&
  opt_ok host_ok u.host && opt_ok ok_pct u.port &&
  opt_ok ok_pct u.path && opt_ok ok_pct u.query &&
  opt_ok ok_pct u.fragment

/-! ## Concrete values used by individual claims -/

/-- An absolute URI `http://a/b/./c` whose path contains a dot segment. -/
def c2_reference : uri_parts :=
  ⟨some (strB "http"), none, some (strB "a"), none, some (strB "/b/./c"),
   none, none⟩

/-- An arbitrary base URI `http://base/x`. -/
def c2_base : uri_parts :=
  ⟨some (strB "http"), none, some (strB "base"), none, some (strB "/x"),
   none, none⟩

/-- The URI `http://ex%41mple.com/`: a properly percent-encoded host whose
triple `%41` encodes the uppercase letter `A`. -/
def c5_example : uri_parts :=
  ⟨some (strB "http"), none, some (strB "ex%41mple.com"), none,
   some (strB "/"), none, none⟩

/-- A representative well-formed URI inside the domain of the amended
idempotence claim. -/
def c5_witness_uri : uri_parts :=
  ⟨some (strB "HTTP"), some (strB "u%3Ap"), some (strB "Example.COM"),
   some (strB "8080"), some (strB "/a/./b/%7e"), some (strB "q=%41"),
   some (strB "Frag")⟩

end NetworkUri

namespace Whatwg

open NetworkUri

/-- The `url_result` of `detail/uri_parse.hpp`: the value returned by the
WHATWG `detail::parse`.  It carries the (partially) serialized url, a
success flag and a validation-error flag — nothing else. -/
structure url_result where
  url : List Nat
  success : Bool
  validation_error : Bool
deriving DecidableEq, Repr

/-- The default-constructed `url_result`. -/
def url_result_default : url_result := ⟨[], false, false⟩

/-- The base-taking constructor `url(const Source &source, const url &base)`
of `detail/uri_parse.hpp` (lines 473-482): copy the base into `*this` (via
`tmp.swap`), then parse the source on its own with `url(source)` — which
throws `uri_syntax_error` when that parse fails — and finally, if the parsed
source has a query, overwrite the query part with the parsed source's query.
The parameter `parsed_source` is the outcome of `url(source)`: `none` when
that constructor throws, `some` of its component model otherwise. -/
def url_ctor_with_base (parsed_source : Option uri_parts) (base : uri_parts) :
    Except uri_error uri_parts :=
  match parsed_source with
  | none => .error .uri_syntax_error
  | some ps =>
    .ok { base with query := if ps.query.isSome then ps.query else base.query }

/-- The component model of the base URL of spec scenario 4,
`http://base.invalid/x/y`. -/
def scenario4_base : uri_parts :=
  ⟨some (strB "http"), none, some (strB "base.invalid"), none,
   some (strB "/x/y"), none, none⟩

/-! ## The query pair iterator of `url::query_iterator` -/

/-- Separator test of `query_iterator::advance`/`assign`:
`c == '&' || c == ';'`. -/
def isQSep (c : Nat) : Bool := c = 38 || c = 59

/-- The bytes of the current pair: up to the first separator
(`query_iterator::assign`, the `sep_it` search). -/
def beforeSep (s : List Nat) : List Nat := s.takeWhile (fun c => !isQSep c)

/-- The remaining query after the current pair: `query_iterator::advance`
drops up to and including the first separator; with no separator the
iterator moves to the empty tail. -/
def afterSep (s : List Nat) : List Nat :=
  match s.dropWhile (fun c => !isQSep c) with
  | [] => []
  | _ :: t => t

/-- Name/value split of one pair (`query_iterator::assign`): the name is
everything before the first `=` (61), the value everything after it up to
the separator; with no `=` the value is empty. -/
def mkPair (l : List Nat) : List Nat × List Nat :=
  (l.takeWhile (fun c => c ≠ 61),
   match l.dropWhile (fun c => c ≠ 61) with
   | [] => []
   | _ :: t => t)

/-- The iteration loop of `query_iterator`: yield the current pair, then
`increment` (advance past the separator and re-assign); iteration ends when
the remaining query becomes empty. -/
def query_pairs_loop (s : List Nat) : List (List Nat × List Nat) :=
  mkPair (beforeSep s) ::
    (if h : afterSep s = [] then []
     else query_pairs_loop (afterSep s))
termination_by s.length
decreasing_by
  simp only [afterSep] at h ⊢
  rcases hd : List.dropWhile (fun c => !isQSep c) s with _ | ⟨t, ts⟩
  · simp [hd] at h
  · simp only [hd]
    have h1 : (List.dropWhile (fun c => !isQSep c) s).length ≤ s.length := by
      clear hd h
      induction s with
      | nil => simp
      | cons a l ih =>
        by_cases ha : (!isQSep a) = true
        · simp [List.dropWhile, ha]; omega
        · simp [List.dropWhile, ha]
    rw [hd] at h1
    simp at h1
    omega

/-- The full iteration of `url::query_iterator` over a stored query part
(which includes the leading `?`): the constructor first skips the `?`; if the
rest is empty the iterator is already the end iterator. -/
def query_pairs (q : List Nat) : List (List Nat × List Nat) :=
  match q with
  | [] => []
  | _ :: s => if s = [] then [] else query_pairs_loop s

/-- The claim's reading of the query split, stated from the spec's words:
pairs are split at every `&` and every `;` byte, each pair splits at its
first `=`, and a pair with no `=` has an empty value.  This is the reference
definition the iterator is compared against. -/
def qp_split : List Nat → List (List Nat)
  | [] => [[]]
  | c :: rest =>
    if isQSep c then [] :: qp_split rest
    else
      match qp_split rest with
      | s :: ss => (c :: s) :: ss
      | [] => [[c]]

/-- The pair list predicted by the claim for a query body (without the
leading `?`). -/
def claim_query_pairs (s : List Nat) : List (List Nat × List Nat) :=
  (qp_split s).map mkPair

/-- Whether the query body is empty or ends with a pair separator — exactly
the cases in which the iterator stops before yielding a final empty pair. -/
def endsWithSep (s : List Nat) : Bool :=
  match s.getLast? with
  | some c => isQSep c
  | none => true

/-- Whether a query body contains a pair separator at all. -/
def hasSep (s : List Nat) : Bool := s.any isQSep

end Whatwg

instance : DecidableEq (Except NetworkUri.uri_error NetworkUri.uri_parts) :=
  fun a b =>
    match a, b with
    | .error e1, .error e2 =>
      if h : e1 = e2 then isTrue (by rw [h])
      else isFalse (fun hh => h (by injection hh))
    | .error _, .ok _ => isFalse (fun h => Except.noConfusion h)
    | .ok _, .error _ => isFalse (fun h => Except.noConfusion h)
    | .ok u1, .ok u2 =>
      if h : u1 = u2 then isTrue (by rw [h])
      else isFalse (fun hh => h (by injection hh))

/-! # Theorems -/

open Skyr NetworkUri Whatwg

set_option maxRecDepth 10000

/-- C1: for every byte `b` and every encode set `S` among `c0_control`,
`fragment`, `path`, `userinfo`: if `b` is in `S` then `percent_encode_byte`
produces the three-byte percent-encoded form (`is_encoded()` true, size 3),
and otherwise it produces the single-byte form `[b]` (size 1). -/
theorem C1_encode_byte_length :
    ∀ b : Byte, ∀ S : encode_set,
      (S = .c0_control ∨ S = .fragment ∨ S = .path ∨ S = .userinfo) →
      (is_in_set b S = true →
        percent_encode_byte b S = percent_encoded_char_encode b ∧
        is_encoded (percent_encode_byte b S) = true ∧
        (percent_encode_byte b S).length = 3) ∧
      (is_in_set b S = false →
        percent_encode_byte b S = [b.val] ∧
        (percent_encode_byte b S).length = 1) := by
  intro b S hS
  rcases hS with h | h | h | h <;> subst h <;> revert b <;> decide

/-- Witness for C1: the space `0x20` is in the path set and is encoded as a
three-byte form; the tilde `0x7e` is not in the path set and stays a single
byte. -/
theorem C1_encode_byte_length_witness :
    (percent_encode_byte (0x20 : Byte) .path).length = 3 ∧
    (percent_encode_byte (0x7e : Byte) .path).length = 1 :=
  ⟨((C1_encode_byte_length (0x20 : Byte) .path
      (Or.inr (Or.inr (Or.inl rfl)))).1 (by decide)).2.2,
   ((C1_encode_byte_length (0x7e : Byte) .path
      (Or.inr (Or.inr (Or.inl rfl)))).2 (by decide)).2⟩

/-- C6: the encode sets are strictly nested:
`c0_control ⊂ fragment ⊂ path ⊂ userinfo`. -/
theorem C6_encode_sets_strictly_nested :
    (∀ b : Byte,
      (is_c0_control_byte b = true → is_fragment_byte b = true) ∧
      (is_fragment_byte b = true → is_path_byte b = true) ∧
      (is_path_byte b = true → is_userinfo_byte b = true)) ∧
    (is_fragment_byte (0x20 : Byte) = true ∧
      is_c0_control_byte (0x20 : Byte) = false) ∧
    (is_path_byte (0x23 : Byte) = true ∧
      is_fragment_byte (0x23 : Byte) = false) ∧
    (is_userinfo_byte (0x2f : Byte) = true ∧
      is_path_byte (0x2f : Byte) = false) := by
  refine ⟨?_, by decide, by decide, by decide⟩
  decide

/-- Witness for C6: the null byte is a C0 control byte, hence also in the
fragment set. -/
theorem C6_encode_sets_strictly_nested_witness :
    is_fragment_byte (0x00 : Byte) = true :=
  (C6_encode_sets_strictly_nested.1 (0x00 : Byte)).1 (by decide)

/-- C7: whenever `percent_encode_byte` produces the three-byte form, the
two hex digits are uppercase ASCII `0-9A-F`, high nibble first, low nibble
second. -/
theorem C7_encode_byte_uppercase_hex :
    ∀ b : Byte, ∀ S : encode_set,
      is_encoded (percent_encode_byte b S) = true →
      (percent_encode_byte b S).length = 3 ∧
      (percent_encode_byte b S).head? = some 37 ∧
      isUpperHexN ((percent_encode_byte b S).getD 1 0) = true ∧
      isUpperHexN ((percent_encode_byte b S).getD 2 0) = true ∧
      hexValN ((percent_encode_byte b S).getD 1 0) = b.val / 16 ∧
      hexValN ((percent_encode_byte b S).getD 2 0) = b.val % 16 := by
  intro b S
  cases S <;> revert b <;> decide

/-- Witness for C7: encoding the space with the fragment set yields `%20`,
whose digits are the uppercase hex digits of `0x20`. -/
theorem C7_encode_byte_uppercase_hex_witness :
    isUpperHexN ((percent_encode_byte (0x20 : Byte) .fragment).getD 1 0)
      = true :=
  (C7_encode_byte_uppercase_hex (0x20 : Byte) .fragment (by decide)).2.2.1

/-- C8: `percent_encode_byte(0x20, path)` is `"%20"`,
`percent_encode_byte(0x20, none)` is `"%20"` (the `none` set encodes every
byte unconditionally), and `percent_encode_byte(0x7e, userinfo)` is the
single byte `"~"`. -/
theorem C8_concrete_encodings :
    percent_encode_byte (0x20 : Byte) .path = [37, 50, 48] ∧
    percent_encode_byte (0x20 : Byte) .none = [37, 50, 48] ∧
    (∀ b : Byte, percent_encode_byte b .none = percent_encoded_char_encode b) ∧
    percent_encode_byte (0x7e : Byte) .userinfo = [0x7e] ∧
    is_in_set (0x7e : Byte) .c0_control = false ∧
    is_in_set (0x7e : Byte) .fragment = false ∧
    is_in_set (0x7e : Byte) .path = false ∧
    is_in_set (0x7e : Byte) .userinfo = false := by
  decide

/-- C10: for every `uri` value and every component, when `has_X()` is false
the accessor `X()` returns the empty view instead of failing. -/
theorem C10_absent_accessors_empty :
    ∀ u : uri_parts,
      (has_scheme u = false → scheme_view u = []) ∧
      (has_user_info u = false → user_info_view u = []) ∧
      (has_host u = false → host_view u = []) ∧
      (has_port u = false → port_view u = []) ∧
      (has_path u = false → path_view u = []) ∧
      (has_query u = false → query_view u = []) ∧
      (has_fragment u = false → fragment_view u = []) := by
  intro u
  refine ⟨?_, ?_, ?_, ?_, ?_, ?_, ?_⟩
  · intro h
    cases hs : u.scheme with
    | none => simp [scheme_view, hs]
    | some v => simp [has_scheme, hs] at h
  · intro h
    cases hs : u.user_info with
    | none => simp [user_info_view, hs]
    | some v => simp [has_user_info, hs] at h
  · intro h
    cases hs : u.host with
    | none => simp [host_view, hs]
    | some v => simp [has_host, hs] at h
  · intro h
    cases hs : u.port with
    | none => simp [port_view, hs]
    | some v => simp [has_port, hs] at h
  · intro h
    cases hs : u.path with
    | none => simp [path_view, hs]
    | some v => simp [has_path, hs] at h
  · intro h
    cases hs : u.query with
    | none => simp [query_view, hs]
    | some v => simp [has_query, hs] at h
  · intro h
    cases hs : u.fragment with
    | none => simp [fragment_view, hs]
    | some v => simp [has_fragment, hs] at h

/-- Witness for C10: the default-constructed uri has no scheme and its
scheme accessor returns the empty view. -/
theorem C10_absent_accessors_empty_witness :
    scheme_view empty_uri_parts = [] :=
  (C10_absent_accessors_empty empty_uri_parts).1 (by decide)

/-- Counterexample to C2: resolving the absolute reference `http://a/b/./c`
against a base returns the reference unchanged, with the dot segment still
in its path, whereas the claim requires the dot segments to be removed
(`/b/c`). -/
theorem C2_resolve_keeps_dot_segments :
    uri_resolve c2_reference c2_base = .ok c2_reference ∧
    c2_reference.path = some (strB "/b/./c") ∧
    remove_dot_segments (strB "/b/./c") = strB "/b/c" ∧
    strB "/b/c" ≠ strB "/b/./c" := by
  refine ⟨by decide, by decide, by decide, by decide⟩

/-- C2 as amended: for every reference that has a scheme (is absolute),
`uri::resolve` returns the reference unchanged — its dot segments are not
removed. -/
theorem C2_resolve_absolute_returns_reference :
    ∀ r base : uri_parts, is_absolute r = true →
      uri_resolve r base = .ok r := by
  intro r base h
  by_cases ho : is_opaque_uri r = true
  · simp [uri_resolve, ho]
  · simp [uri_resolve, h, ho]

/-- Witness for C2 (amended): resolving the absolute `http://a/b/./c`
against `http://base/x` returns it unchanged. -/
theorem C2_resolve_absolute_returns_reference_witness :
    uri_resolve c2_reference c2_base = .ok c2_reference :=
  C2_resolve_absolute_returns_reference c2_reference c2_base (by decide)

/-- C3: whatever the outcome of parsing the source on its own, the
base-taking `url` constructor keeps the base's host and path; parsing
`//example.com/a` against `http://base.invalid/x/y` can therefore never
produce host `example.com` and path `/a` as the claim states (and in fact
the standalone parse of `//example.com/a` fails, so the constructor throws
`uri_syntax_error`). -/
theorem C3_base_ctor_keeps_base_components :
    ∀ (parsed_source : Option uri_parts) (u : uri_parts),
      url_ctor_with_base parsed_source scenario4_base = .ok u →
      u.host = some (strB "base.invalid") ∧
      u.path = some (strB "/x/y") ∧
      ¬(u.host = some (strB "example.com")) ∧
      ¬(u.path = some (strB "/a")) := by
  intro ps u h
  cases ps with
  | none => exact absurd h (by simp [url_ctor_with_base])
  | some p =>
    simp only [url_ctor_with_base, Except.ok.injEq] at h
    subst h
    refine ⟨rfl, rfl, ?_, ?_⟩
    · exact (by decide : ¬(scenario4_base.host = some (strB "example.com")))
    · exact (by decide : ¬(scenario4_base.path = some (strB "/a")))

/-- Witness for C3: with a source whose standalone parse succeeds with no
components, the constructor returns the base itself — host `base.invalid`,
path `/x/y`. -/
theorem C3_base_ctor_keeps_base_components_witness :
    scenario4_base.host = some (strB "base.invalid") ∧
    scenario4_base.path = some (strB "/x/y") ∧
    ¬(scenario4_base.host = some (strB "example.com")) ∧
    ¬(scenario4_base.path = some (strB "/a")) :=
  C3_base_ctor_keeps_base_components (some empty_uri_parts) scenario4_base
    (by decide)

/-- Counterexample to C4: when the standalone parse of the source fails,
the base-taking public constructor reports the failure by throwing
`uri_syntax_error` — an exception crossing the library boundary — rather
than returning a `ParseError` value carrying a parser state and a byte
offset. -/
theorem C4_ctor_throws_on_parse_failure :
    url_ctor_with_base none scenario4_base = .error .uri_syntax_error := rfl

/-- C4 as amended: parse failure is reported by `detail::parse` through a
`url_result` that carries only the partial url string, a success flag and a
validation-error flag — no parser state and no byte offset — and the public
constructors translate failure into a thrown `uri_syntax_error`. -/
theorem C4_failure_reporting :
    (∀ r : url_result, r = ⟨r.url, r.success, r.validation_error⟩) ∧
    url_result_default = ⟨[], false, false⟩ ∧
    (∀ base : uri_parts,
      url_ctor_with_base none base = .error .uri_syntax_error) :=
  ⟨fun _ => rfl, rfl, fun _ => rfl⟩

theorem qp_split_ne_nil (s : List Nat) : qp_split s ≠ [] := by
  induction s with
  | nil => simp [qp_split]
  | cons c rest ih =>
    simp only [qp_split]
    by_cases h : isQSep c = true
    · simp [h]
    · simp only [h]
      rcases hq : qp_split rest with _ | ⟨a, as⟩
      · simp
      · simp

theorem qp_split_eq (s : List Nat) :
    qp_split s = beforeSep s ::
      (if hasSep s then qp_split (afterSep s) else []) := by
  induction s with
  | nil => simp [qp_split, beforeSep, hasSep]
  | cons c rest ih =>
    by_cases h : isQSep c = true
    · simp [qp_split, beforeSep, afterSep, hasSep, h, List.takeWhile, List.dropWhile]
    · simp only [qp_split, h, if_false]
      rcases hq : qp_split rest with _ | ⟨a, as⟩
      · exact absurd hq (qp_split_ne_nil rest)
      · rw [hq] at ih
        have h1 : beforeSep (c :: rest) = c :: beforeSep rest := by
          simp [beforeSep, List.takeWhile, h]
        have h2 : afterSep (c :: rest) = afterSep rest := by
          simp [afterSep, List.dropWhile, h]
        have h3 : hasSep (c :: rest) = hasSep rest := by
          simp [hasSep, h]
        rw [h1, h2, h3]
        injection ih with ih1 ih2
        rw [ih1, ih2]
        simp

theorem afterSep_nil_of_no_sep (s : List Nat) (h : hasSep s = false) :
    afterSep s = [] := by
  induction s with
  | nil => simp [afterSep]
  | cons c rest ih =>
    simp only [hasSep, List.any_cons, Bool.or_eq_false_iff] at h
    simp only [afterSep, List.dropWhile, h.1, Bool.not_false]
    have := ih (by simp [hasSep, h.2])
    simpa [afterSep] using this

theorem hasSep_of_afterSep_ne_nil (s : List Nat) (h : afterSep s ≠ []) :
    hasSep s = true := by
  by_contra hc
  simp at hc
  exact h (afterSep_nil_of_no_sep s hc)

theorem endsWithSep_false_of_no_sep (s : List Nat) (hne : s ≠ [])
    (h : hasSep s = false) : endsWithSep s = false := by
  have hgl := List.getLast?_eq_getLast_of_ne_nil hne
  have hmem : s.getLast hne ∈ s := List.getLast_mem hne
  have hq : isQSep (s.getLast hne) = false := by
    simp only [hasSep, List.any_eq_false] at h
    simpa using h _ hmem
  simp [endsWithSep, hgl, hq]

theorem last_afterSep (s : List Nat) (h : afterSep s ≠ []) :
    s.getLast? = (afterSep s).getLast? := by
  induction s with
  | nil => simp [afterSep] at h
  | cons c rest ih =>
    by_cases hc : isQSep c = true
    · have ha : afterSep (c :: rest) = rest := by
        simp [afterSep, List.dropWhile, hc]
      rw [ha] at h ⊢
      rcases rest with _ | ⟨r, rs⟩
      · exact absurd rfl h
      · exact List.getLast?_cons_cons
    · have ha : afterSep (c :: rest) = afterSep rest := by
        simp [afterSep, List.dropWhile, hc]
      rw [ha] at h ⊢
      have hr : rest ≠ [] := by
        intro hre
        subst hre
        simp [afterSep] at h
      rcases rest with _ | ⟨r, rs⟩
      · exact absurd rfl hr
      · rw [List.getLast?_cons_cons]
        exact ih h

theorem endsWithSep_afterSep (s : List Nat) (h : afterSep s ≠ []) :
    endsWithSep s = endsWithSep (afterSep s) := by
  have := last_afterSep s h
  simp only [endsWithSep, this]

theorem endsWithSep_true_of_afterSep_nil (s : List Nat)
    (hsep : hasSep s = true) (h : afterSep s = []) :
    endsWithSep s = true := by
  induction s with
  | nil => simp [hasSep] at hsep
  | cons c rest ih =>
    by_cases hc : isQSep c = true
    · have ha : afterSep (c :: rest) = rest := by
        simp [afterSep, List.dropWhile, hc]
      rw [ha] at h
      subst h
      simp [endsWithSep, hc]
    · have ha : afterSep (c :: rest) = afterSep rest := by
        simp [afterSep, List.dropWhile, hc]
      rw [ha] at h
      have hsr : hasSep rest = true := by
        simp only [hasSep, List.any_cons, hc] at hsep
        simpa [hasSep] using hsep
      have hr : rest ≠ [] := by
        intro hre
        subst hre
        simp [hasSep] at hsr
      have := ih hsr h
      rcases rest with _ | ⟨r, rs⟩
      · exact absurd rfl hr
      · simpa [endsWithSep, List.getLast?_cons_cons] using this

theorem claim_query_pairs_ne_nil (s : List Nat) :
    claim_query_pairs s ≠ [] := by
  simp only [claim_query_pairs]
  intro h
  exact qp_split_ne_nil s (by simpa using h)

theorem claim_query_pairs_cons (s : List Nat) (hsep : hasSep s = true) :
    claim_query_pairs s =
      mkPair (beforeSep s) :: claim_query_pairs (afterSep s) := by
  simp only [claim_query_pairs]
  rw [qp_split_eq s, hsep]
  simp

theorem query_pairs_loop_eq (s : List Nat) (hne : s ≠ []) :
    query_pairs_loop s =
      if endsWithSep s then (claim_query_pairs s).dropLast
      else claim_query_pairs s := by
  induction s using query_pairs_loop.induct with
  | _ s ih =>
    rw [query_pairs_loop]
    by_cases h : afterSep s = []
    · simp only [h, dif_pos]
      by_cases hsep : hasSep s = true
      · have he := endsWithSep_true_of_afterSep_nil s hsep h
        rw [he, if_pos rfl]
        rw [claim_query_pairs_cons s hsep, h]
        simp [claim_query_pairs, qp_split]
      · simp at hsep
        have he := endsWithSep_false_of_no_sep s hne hsep
        rw [he]
        simp only [Bool.false_eq_true, if_false]
        simp only [claim_query_pairs]
        rw [qp_split_eq s, hsep]
        simp
    · have hih := ih h h
      have hsep := hasSep_of_afterSep_ne_nil s h
      have hee := endsWithSep_afterSep s h
      rw [dif_neg h, hih, claim_query_pairs_cons s hsep, hee]
      by_cases he : endsWithSep (afterSep s) = true
      · rw [he]
        simp only [if_true]
        rcases hc : claim_query_pairs (afterSep s) with _ | ⟨x, xs⟩
        · exact absurd hc (claim_query_pairs_ne_nil _)
        · simp [List.dropLast_cons₂]
      · simp only [he]
        simp

/-- Counterexample to C9: the query `a=1&` ends with a separator; splitting
at every separator as the claim states yields the two pairs
`[("a","1"), ("","")]`, but the iterator yields only `[("a","1")]` — the
trailing empty pair after a final separator is never produced. -/
theorem C9_trailing_separator_pair_dropped :
    query_pairs (strB "?a=1&") ≠ claim_query_pairs (strB "a=1&") := by
  have h1 : query_pairs (strB "?a=1&") = [([97], [49])] := by
    show query_pairs [63, 97, 61, 49, 38] = [([97], [49])]
    rw [query_pairs]
    rw [if_neg (show ¬([97, 61, 49, 38] : List Nat) = [] by simp)]
    rw [query_pairs_loop]
    norm_num [beforeSep, afterSep, mkPair, isQSep, List.takeWhile, List.dropWhile]
  have h2 : claim_query_pairs (strB "a=1&") = [([97], [49]), ([], [])] := by
    decide
  rw [h1, h2]
  simp

/-- C9 as amended: the query pair iterator splits pairs at every `&` and
`;`, splits name from value at the first `=` of the pair and yields an
empty value when there is no `=`, except that when the query body is empty
or ends with a pair separator the final empty pair is not yielded. -/
theorem C9_query_pairs_split :
    ∀ s : List Nat,
      query_pairs (63 :: s) =
        if endsWithSep s then (claim_query_pairs s).dropLast
        else claim_query_pairs s := by
  intro s
  rcases s with _ | ⟨c, rest⟩
  · decide
  · have hne : (c :: rest) ≠ ([] : List Nat) := by simp
    simp only [query_pairs, if_neg hne]
    exact query_pairs_loop_eq (c :: rest) hne

-- arithmetic facts about the character classes

theorem isHexN_toUpperN {x : Nat} (h : isHexN x = true) :
    isUpperHexN (toUpperN x) = true := by
  simp only [isHexN, Bool.or_eq_true, Bool.and_eq_true, decide_eq_true_eq] at h
  unfold toUpperN isUpperHexN
  split_ifs <;> simp_all [Bool.and_eq_true, decide_eq_true_eq] <;> omega

theorem hexValN_toUpperN {x : Nat} (h : isHexN x = true) :
    hexValN (toUpperN x) = hexValN x := by
  simp only [isHexN, Bool.or_eq_true, Bool.and_eq_true, decide_eq_true_eq] at h
  unfold toUpperN hexValN
  split_ifs <;> simp_all [Bool.and_eq_true, decide_eq_true_eq] <;> omega

theorem isHexN_of_isUpperHexN {x : Nat} (h : isUpperHexN x = true) :
    isHexN x = true := by
  simp only [isUpperHexN, Bool.or_eq_true, Bool.and_eq_true, decide_eq_true_eq] at h
  simp only [isHexN, Bool.or_eq_true, Bool.and_eq_true, decide_eq_true_eq]
  omega

theorem toUpperN_of_isUpperHexN {x : Nat} (h : isUpperHexN x = true) :
    toUpperN x = x := by
  simp only [isUpperHexN, Bool.or_eq_true, Bool.and_eq_true, decide_eq_true_eq] at h
  unfold toUpperN
  split_ifs <;> simp_all [Bool.and_eq_true, decide_eq_true_eq] <;> omega

theorem isHexN_toLowerN {x : Nat} (h : isHexN x = true) :
    isHexN (toLowerN x) = true := by
  simp only [isHexN, Bool.or_eq_true, Bool.and_eq_true, decide_eq_true_eq] at h
  unfold toLowerN
  simp only [isHexN, Bool.or_eq_true, Bool.and_eq_true, decide_eq_true_eq]
  split_ifs <;> simp_all [Bool.and_eq_true, decide_eq_true_eq] <;> omega

theorem hexValN_toLowerN {x : Nat} (h : isHexN x = true) :
    hexValN (toLowerN x) = hexValN x := by
  simp only [isHexN, Bool.or_eq_true, Bool.and_eq_true, decide_eq_true_eq] at h
  unfold toLowerN hexValN
  split_ifs <;> simp_all [Bool.and_eq_true, decide_eq_true_eq] <;> omega

theorem toUpperN_toLowerN_of_isUpperHexN {x : Nat} (h : isUpperHexN x = true) :
    toUpperN (toLowerN x) = x := by
  simp only [isUpperHexN, Bool.or_eq_true, Bool.and_eq_true, decide_eq_true_eq] at h
  unfold toLowerN toUpperN
  split_ifs <;> simp_all [Bool.and_eq_true, decide_eq_true_eq] <;> omega

theorem ne_37_of_unreservedN {v : Nat} (h : unreservedN v = true) : v ≠ 37 := by
  simp only [unreservedN, Bool.or_eq_true, Bool.and_eq_true, decide_eq_true_eq] at h
  omega

theorem toLowerN_of_not_upper {c : Nat} (h : isUpperAlphaN c = false) :
    toLowerN c = c := by
  simp only [isUpperAlphaN, Bool.and_eq_false_iff, decide_eq_false_iff_not] at h
  unfold toLowerN
  split_ifs with h1
  · simp only [Bool.and_eq_true, decide_eq_true_eq] at h1
    rcases h with h | h <;> omega
  · rfl

theorem isUpperAlphaN_toLowerN (c : Nat) : isUpperAlphaN (toLowerN c) = false := by
  unfold toLowerN isUpperAlphaN
  split_ifs <;> simp_all [Bool.and_eq_false_iff, decide_eq_false_iff_not,
    Bool.and_eq_true, decide_eq_true_eq] <;> omega

theorem toLowerN_ne_37 {c : Nat} (h : c ≠ 37) : toLowerN c ≠ 37 := by
  unfold toLowerN
  split_ifs <;> simp_all [Bool.and_eq_true, decide_eq_true_eq] <;> omega

-- scanner lemmas

theorem ok_pct_triple (x y : Nat) (r : List Nat) :
    ok_pct (37 :: x :: y :: r) = (isHexN x && isHexN y && ok_pct r) := by
  simp [ok_pct]

theorem ok_pct_short1 : ok_pct [37] = false := by
  simp [ok_pct]

theorem ok_pct_short2 (x : Nat) : ok_pct [37, x] = false := by
  simp [ok_pct]

theorem ok_pct_cons_ne (c : Nat) (rest : List Nat) (hc : ¬c = 37) :
    ok_pct (c :: rest) = (ok_pct rest) := by
  rcases rest with _ | ⟨x, rest2⟩
  · simp [ok_pct, hc]
  · rcases rest2 with _ | ⟨y, rest3⟩
    · simp [ok_pct, hc]
    · simp [ok_pct, hc]

theorem wf_pct_triple (x y : Nat) (r : List Nat) :
    wf_pct (37 :: x :: y :: r) = (isUpperHexN x && isUpperHexN y && wf_pct r) := by
  simp [wf_pct]

theorem wf_pct_short1 : wf_pct [37] = false := by
  simp [wf_pct]

theorem wf_pct_short2 (x : Nat) : wf_pct [37, x] = false := by
  simp [wf_pct]

theorem wf_pct_cons_ne (c : Nat) (rest : List Nat) (hc : ¬c = 37) :
    wf_pct (c :: rest) = (wf_pct rest) := by
  rcases rest with _ | ⟨x, rest2⟩
  · simp [wf_pct, hc]
  · rcases rest2 with _ | ⟨y, rest3⟩
    · simp [wf_pct, hc]
    · simp [wf_pct, hc]

theorem inert_pct_triple (x y : Nat) (r : List Nat) :
    inert_pct (37 :: x :: y :: r) = (isUpperHexN x && isUpperHexN y && !unreservedN (tripValN x y) && inert_pct r) := by
  simp [inert_pct]

theorem inert_pct_short1 : inert_pct [37] = false := by
  simp [inert_pct]

theorem inert_pct_short2 (x : Nat) : inert_pct [37, x] = false := by
  simp [inert_pct]

theorem inert_pct_cons_ne (c : Nat) (rest : List Nat) (hc : ¬c = 37) :
    inert_pct (c :: rest) = (inert_pct rest) := by
  rcases rest with _ | ⟨x, rest2⟩
  · simp [inert_pct, hc]
  · rcases rest2 with _ | ⟨y, rest3⟩
    · simp [inert_pct, hc]
    · simp [inert_pct, hc]

theorem host_ok_triple (x y : Nat) (r : List Nat) :
    host_ok (37 :: x :: y :: r) = (isHexN x && isHexN y && !isUpperAlphaN (tripValN x y) && host_ok r) := by
  simp [host_ok]

theorem host_ok_short1 : host_ok [37] = false := by
  simp [host_ok]

theorem host_ok_short2 (x : Nat) : host_ok [37, x] = false := by
  simp [host_ok]

theorem host_ok_cons_ne (c : Nat) (rest : List Nat) (hc : ¬c = 37) :
    host_ok (c :: rest) = (host_ok rest) := by
  rcases rest with _ | ⟨x, rest2⟩
  · simp [host_ok, hc]
  · rcases rest2 with _ | ⟨y, rest3⟩
    · simp [host_ok, hc]
    · simp [host_ok, hc]

theorem host_low_ok_triple (x y : Nat) (r : List Nat) :
    host_low_ok (37 :: x :: y :: r) = (isHexN x && isHexN y && !isUpperAlphaN (tripValN x y) && host_low_ok r) := by
  simp [host_low_ok]

theorem host_low_ok_short1 : host_low_ok [37] = false := by
  simp [host_low_ok]

theorem host_low_ok_short2 (x : Nat) : host_low_ok [37, x] = false := by
  simp [host_low_ok]

theorem host_low_ok_cons_ne (c : Nat) (rest : List Nat) (hc : ¬c = 37) :
    host_low_ok (c :: rest) = (!isUpperAlphaN c && host_low_ok rest) := by
  rcases rest with _ | ⟨x, rest2⟩
  · simp [host_low_ok, hc]
  · rcases rest2 with _ | ⟨y, rest3⟩
    · simp [host_low_ok, hc]
    · simp [host_low_ok, hc]

theorem host_wf_pct_triple (x y : Nat) (r : List Nat) :
    host_wf_pct (37 :: x :: y :: r) = (isUpperHexN x && isUpperHexN y && !isUpperAlphaN (tripValN x y) && host_wf_pct r) := by
  simp [host_wf_pct]

theorem host_wf_pct_short1 : host_wf_pct [37] = false := by
  simp [host_wf_pct]

theorem host_wf_pct_short2 (x : Nat) : host_wf_pct [37, x] = false := by
  simp [host_wf_pct]

theorem host_wf_pct_cons_ne (c : Nat) (rest : List Nat) (hc : ¬c = 37) :
    host_wf_pct (c :: rest) = (!isUpperAlphaN c && host_wf_pct rest) := by
  rcases rest with _ | ⟨x, rest2⟩
  · simp [host_wf_pct, hc]
  · rcases rest2 with _ | ⟨y, rest3⟩
    · simp [host_wf_pct, hc]
    · simp [host_wf_pct, hc]

theorem host_inert_triple (x y : Nat) (r : List Nat) :
    host_inert (37 :: x :: y :: r) = (isUpperHexN x && isUpperHexN y && !unreservedN (tripValN x y) && host_inert r) := by
  simp [host_inert]

theorem host_inert_short1 : host_inert [37] = false := by
  simp [host_inert]

theorem host_inert_short2 (x : Nat) : host_inert [37, x] = false := by
  simp [host_inert]

theorem host_inert_cons_ne (c : Nat) (rest : List Nat) (hc : ¬c = 37) :
    host_inert (c :: rest) = (!isUpperAlphaN c && host_inert rest) := by
  rcases rest with _ | ⟨x, rest2⟩
  · simp [host_inert, hc]
  · rcases rest2 with _ | ⟨y, rest3⟩
    · simp [host_inert, hc]
    · simp [host_inert, hc]

theorem pct_upper_triple (x y : Nat) (r : List Nat) :
    pct_upper (37 :: x :: y :: r) =
      (if isHexN x && isHexN y then 37 :: toUpperN x :: toUpperN y :: pct_upper r
       else 37 :: x :: y :: pct_upper r) := by
  simp [pct_upper]

theorem pct_upper_short1 : pct_upper [37] = [37] := by
  simp [pct_upper]

theorem pct_upper_short2 (x : Nat) : pct_upper [37, x] = [37, x] := by
  simp [pct_upper]

theorem pct_upper_cons_ne (c : Nat) (rest : List Nat) (hc : ¬c = 37) :
    pct_upper (c :: rest) = c :: pct_upper rest := by
  rcases rest with _ | ⟨x, rest2⟩
  · simp [pct_upper, hc]
  · rcases rest2 with _ | ⟨y, rest3⟩
    · simp [pct_upper, hc]
    · simp [pct_upper, hc]

theorem decode_unreserved_triple (x y : Nat) (r : List Nat) :
    decode_unreserved (37 :: x :: y :: r) =
      (if isHexN x && isHexN y then
        (if unreservedN (tripValN x y) then tripValN x y :: decode_unreserved r
         else 37 :: x :: y :: decode_unreserved r)
       else 37 :: x :: y :: decode_unreserved r) := by
  simp [decode_unreserved]

theorem decode_unreserved_short1 : decode_unreserved [37] = [37] := by
  simp [decode_unreserved]

theorem decode_unreserved_short2 (x : Nat) :
    decode_unreserved [37, x] = [37, x] := by
  simp [decode_unreserved]

theorem decode_unreserved_cons_ne (c : Nat) (rest : List Nat) (hc : ¬c = 37) :
    decode_unreserved (c :: rest) = c :: decode_unreserved rest := by
  rcases rest with _ | ⟨x, rest2⟩
  · simp [decode_unreserved, hc]
  · rcases rest2 with _ | ⟨y, rest3⟩
    · simp [decode_unreserved, hc]
    · simp [decode_unreserved, hc]

theorem toLowerN_37 : toLowerN 37 = 37 := by decide

theorem wf_pct_pct_upper (s : List Nat) (h : ok_pct s = true) :
    wf_pct (pct_upper s) = true := by
  induction s using pct_upper.induct with
  | case1 => simp [pct_upper, wf_pct]
  | case2 x y rest2 hxy ih =>
    rw [ok_pct_triple, hxy, Bool.true_and] at h
    rw [pct_upper_triple, if_pos hxy, wf_pct_triple]
    have hx := isHexN_toUpperN (Bool.and_elim_left hxy)
    have hy := isHexN_toUpperN (Bool.and_elim_right hxy)
    simp [hx, hy, ih h]
  | case3 x y rest2 hxy ih =>
    rw [ok_pct_triple] at h
    simp only [Bool.and_eq_true] at h
    exact absurd (by simp [h.1.1, h.1.2]) hxy
  | case4 rest hshape =>
    rcases rest with _ | ⟨x, rest'⟩
    · rw [ok_pct_short1] at h; exact absurd h (by simp)
    · rcases rest' with _ | ⟨y, rest''⟩
      · rw [ok_pct_short2] at h; exact absurd h (by simp)
      · exact absurd rfl (hshape x y rest'')
  | case5 c rest hc ih =>
    rw [ok_pct_cons_ne c rest hc] at h
    rw [pct_upper_cons_ne c rest hc, wf_pct_cons_ne c (pct_upper rest) hc]
    exact ih h

theorem inert_pct_decode (s : List Nat) (h : wf_pct s = true) :
    inert_pct (decode_unreserved s) = true := by
  induction s using decode_unreserved.induct with
  | case1 => simp [decode_unreserved, inert_pct]
  | case2 x y rest2 hxy hu ih =>
    rw [wf_pct_triple] at h
    simp only [Bool.and_eq_true] at h
    rw [decode_unreserved_triple, if_pos hxy, if_pos hu]
    rw [inert_pct_cons_ne _ _ (ne_37_of_unreservedN hu)]
    exact ih h.2
  | case3 x y rest2 hxy hu ih =>
    rw [wf_pct_triple] at h
    simp only [Bool.and_eq_true] at h
    rw [decode_unreserved_triple, if_pos hxy, if_neg hu]
    rw [inert_pct_triple]
    simp only [Bool.and_eq_true]
    refine ⟨⟨⟨h.1.1, h.1.2⟩, by simp [hu]⟩, ih h.2⟩
  | case4 x y rest2 hxy ih =>
    rw [wf_pct_triple] at h
    simp only [Bool.and_eq_true] at h
    have : (isHexN x && isHexN y) = true := by
      simp [isHexN_of_isUpperHexN h.1.1, isHexN_of_isUpperHexN h.1.2]
    exact absurd this hxy
  | case5 rest hshape =>
    rcases rest with _ | ⟨x, rest'⟩
    · rw [wf_pct_short1] at h; exact absurd h (by simp)
    · rcases rest' with _ | ⟨y, rest''⟩
      · rw [wf_pct_short2] at h; exact absurd h (by simp)
      · exact absurd rfl (hshape x y rest'')
  | case6 c rest hc ih =>
    rw [wf_pct_cons_ne c rest hc] at h
    rw [decode_unreserved_cons_ne c rest hc, inert_pct_cons_ne c _ hc]
    exact ih h

theorem pct_upper_of_inert (s : List Nat) (h : inert_pct s = true) :
    pct_upper s = s := by
  induction s using pct_upper.induct with
  | case1 => simp [pct_upper]
  | case2 x y rest2 hxy ih =>
    rw [inert_pct_triple] at h
    simp only [Bool.and_eq_true] at h
    rw [pct_upper_triple, if_pos hxy,
      toUpperN_of_isUpperHexN h.1.1.1, toUpperN_of_isUpperHexN h.1.1.2,
      ih h.2]
  | case3 x y rest2 hxy ih =>
    rw [inert_pct_triple] at h
    simp only [Bool.and_eq_true] at h
    have : (isHexN x && isHexN y) = true := by
      simp [isHexN_of_isUpperHexN h.1.1.1, isHexN_of_isUpperHexN h.1.1.2]
    exact absurd this hxy
  | case4 rest hshape =>
    rcases rest with _ | ⟨x, rest'⟩
    · rw [inert_pct_short1] at h; exact absurd h (by simp)
    · rcases rest' with _ | ⟨y, rest''⟩
      · rw [inert_pct_short2] at h; exact absurd h (by simp)
      · exact absurd rfl (hshape x y rest'')
  | case5 c rest hc ih =>
    rw [inert_pct_cons_ne c rest hc] at h
    rw [pct_upper_cons_ne c rest hc, ih h]

theorem decode_unreserved_of_inert (s : List Nat) (h : inert_pct s = true) :
    decode_unreserved s = s := by
  induction s using decode_unreserved.induct with
  | case1 => simp [decode_unreserved]
  | case2 x y rest2 hxy hu ih =>
    rw [inert_pct_triple] at h
    simp only [Bool.and_eq_true] at h
    have := h.1.2
    simp [hu] at this
  | case3 x y rest2 hxy hu ih =>
    rw [inert_pct_triple] at h
    simp only [Bool.and_eq_true] at h
    rw [decode_unreserved_triple, if_pos hxy, if_neg hu, ih h.2]
  | case4 x y rest2 hxy ih =>
    rw [inert_pct_triple] at h
    simp only [Bool.and_eq_true] at h
    have : (isHexN x && isHexN y) = true := by
      simp [isHexN_of_isUpperHexN h.1.1.1, isHexN_of_isUpperHexN h.1.1.2]
    exact absurd this hxy
  | case5 rest hshape =>
    rcases rest with _ | ⟨x, rest'⟩
    · rw [inert_pct_short1] at h; exact absurd h (by simp)
    · rcases rest' with _ | ⟨y, rest''⟩
      · rw [inert_pct_short2] at h; exact absurd h (by simp)
      · exact absurd rfl (hshape x y rest'')
  | case6 c rest hc ih =>
    rw [inert_pct_cons_ne c rest hc] at h
    rw [decode_unreserved_cons_ne c rest hc, ih h]

theorem lower_str_triple (x y : Nat) (r : List Nat) :
    lower_str (37 :: x :: y :: r) =
      37 :: toLowerN x :: toLowerN y :: lower_str r := by
  simp [lower_str, toLowerN_37]

theorem lower_str_cons (c : Nat) (r : List Nat) :
    lower_str (c :: r) = toLowerN c :: lower_str r := by
  simp [lower_str]

theorem host_low_ok_lower (s : List Nat) (h : host_ok s = true) :
    host_low_ok (lower_str s) = true := by
  induction s using host_ok.induct with
  | case1 => simp [lower_str, host_low_ok]
  | case2 x y rest2 ih =>
    rw [host_ok_triple] at h
    simp only [Bool.and_eq_true] at h
    obtain ⟨⟨⟨hx, hy⟩, hv⟩, hr⟩ := h
    rw [lower_str_triple, host_low_ok_triple]
    simp only [Bool.and_eq_true]
    refine ⟨⟨⟨isHexN_toLowerN hx, isHexN_toLowerN hy⟩, ?_⟩, ih hr⟩
    simpa [tripValN, hexValN_toLowerN hx, hexValN_toLowerN hy] using hv
  | case3 rest hshape =>
    rcases rest with _ | ⟨x, rest'⟩
    · rw [host_ok_short1] at h; exact absurd h (by simp)
    · rcases rest' with _ | ⟨y, rest''⟩
      · rw [host_ok_short2] at h; exact absurd h (by simp)
      · exact absurd rfl (hshape x y rest'')
  | case4 c rest hc ih =>
    rw [host_ok_cons_ne c rest hc] at h
    rw [lower_str_cons, host_low_ok_cons_ne _ _ (toLowerN_ne_37 hc)]
    simp only [Bool.and_eq_true]
    exact ⟨by simp [isUpperAlphaN_toLowerN], ih h⟩

theorem host_wf_pct_upper (s : List Nat) (h : host_low_ok s = true) :
    host_wf_pct (pct_upper s) = true := by
  induction s using pct_upper.induct with
  | case1 => simp [pct_upper, host_wf_pct]
  | case2 x y rest2 hxy ih =>
    rw [host_low_ok_triple] at h
    simp only [Bool.and_eq_true] at h
    obtain ⟨⟨⟨hx, hy⟩, hv⟩, hr⟩ := h
    rw [pct_upper_triple, if_pos hxy, host_wf_pct_triple]
    simp only [Bool.and_eq_true]
    refine ⟨⟨⟨isHexN_toUpperN hx, isHexN_toUpperN hy⟩, ?_⟩, ih hr⟩
    simpa [tripValN, hexValN_toUpperN hx, hexValN_toUpperN hy] using hv
  | case3 x y rest2 hxy ih =>
    rw [host_low_ok_triple] at h
    simp only [Bool.and_eq_true] at h
    exact absurd (by simp [h.1.1.1, h.1.1.2]) hxy
  | case4 rest hshape =>
    rcases rest with _ | ⟨x, rest'⟩
    · rw [host_low_ok_short1] at h; exact absurd h (by simp)
    · rcases rest' with _ | ⟨y, rest''⟩
      · rw [host_low_ok_short2] at h; exact absurd h (by simp)
      · exact absurd rfl (hshape x y rest'')
  | case5 c rest hc ih =>
    rw [host_low_ok_cons_ne c rest hc] at h
    simp only [Bool.and_eq_true] at h
    rw [pct_upper_cons_ne c rest hc, host_wf_pct_cons_ne c _ hc]
    simp only [Bool.and_eq_true]
    exact ⟨h.1, ih h.2⟩

theorem host_inert_decode (s : List Nat) (h : host_wf_pct s = true) :
    host_inert (decode_unreserved s) = true := by
  induction s using decode_unreserved.induct with
  | case1 => simp [decode_unreserved, host_inert]
  | case2 x y rest2 hxy hu ih =>
    rw [host_wf_pct_triple] at h
    simp only [Bool.and_eq_true] at h
    obtain ⟨⟨⟨hx, hy⟩, hv⟩, hr⟩ := h
    rw [decode_unreserved_triple, if_pos hxy, if_pos hu]
    rw [host_inert_cons_ne _ _ (ne_37_of_unreservedN hu)]
    simp only [Bool.and_eq_true]
    exact ⟨hv, ih hr⟩
  | case3 x y rest2 hxy hu ih =>
    rw [host_wf_pct_triple] at h
    simp only [Bool.and_eq_true] at h
    obtain ⟨⟨⟨hx, hy⟩, hv⟩, hr⟩ := h
    rw [decode_unreserved_triple, if_pos hxy, if_neg hu, host_inert_triple]
    simp only [Bool.and_eq_true]
    exact ⟨⟨⟨hx, hy⟩, by simp [hu]⟩, ih hr⟩
  | case4 x y rest2 hxy ih =>
    rw [host_wf_pct_triple] at h
    simp only [Bool.and_eq_true] at h
    have : (isHexN x && isHexN y) = true := by
      simp [isHexN_of_isUpperHexN h.1.1.1, isHexN_of_isUpperHexN h.1.1.2]
    exact absurd this hxy
  | case5 rest hshape =>
    rcases rest with _ | ⟨x, rest'⟩
    · rw [host_wf_pct_short1] at h; exact absurd h (by simp)
    · rcases rest' with _ | ⟨y, rest''⟩
      · rw [host_wf_pct_short2] at h; exact absurd h (by simp)
      · exact absurd rfl (hshape x y rest'')
  | case6 c rest hc ih =>
    rw [host_wf_pct_cons_ne c rest hc] at h
    simp only [Bool.and_eq_true] at h
    rw [decode_unreserved_cons_ne c rest hc, host_inert_cons_ne c _ hc]
    simp only [Bool.and_eq_true]
    exact ⟨h.1, ih h.2⟩

theorem host_pass2_id (s : List Nat) (h : host_inert s = true) :
    decode_unreserved (pct_upper (lower_str s)) = s := by
  induction s using host_inert.induct with
  | case1 => simp [lower_str, pct_upper, decode_unreserved]
  | case2 x y rest2 ih =>
    rw [host_inert_triple] at h
    simp only [Bool.and_eq_true] at h
    obtain ⟨⟨⟨hx, hy⟩, hv⟩, hr⟩ := h
    have hxh := isHexN_of_isUpperHexN hx
    have hyh := isHexN_of_isUpperHexN hy
    rw [lower_str_triple, pct_upper_triple,
      if_pos (by simp [isHexN_toLowerN hxh, isHexN_toLowerN hyh]),
      toUpperN_toLowerN_of_isUpperHexN hx, toUpperN_toLowerN_of_isUpperHexN hy,
      decode_unreserved_triple,
      if_pos (by simp [isHexN_of_isUpperHexN hx, isHexN_of_isUpperHexN hy]),
      if_neg (by simp_all), ih hr]
  | case3 rest hshape =>
    rcases rest with _ | ⟨x, rest'⟩
    · rw [host_inert_short1] at h; exact absurd h (by simp)
    · rcases rest' with _ | ⟨y, rest''⟩
      · rw [host_inert_short2] at h; exact absurd h (by simp)
      · exact absurd rfl (hshape x y rest'')
  | case4 c rest hc ih =>
    rw [host_inert_cons_ne c rest hc] at h
    simp only [Bool.and_eq_true] at h
    rw [lower_str_cons, toLowerN_of_not_upper (by simpa using h.1),
      pct_upper_cons_ne c _ hc, decode_unreserved_cons_ne c _ hc, ih h.2]

-- path lemmas

theorem isUpperHexN_ne_47 {x : Nat} (h : isUpperHexN x = true) : x ≠ 47 := by
  simp only [isUpperHexN, Bool.or_eq_true, Bool.and_eq_true, decide_eq_true_eq] at h
  omega

theorem splitSlash_ne_nil (s : List Nat) : splitSlash s ≠ [] := by
  induction s with
  | nil => simp [splitSlash]
  | cons c rest ih =>
    simp only [splitSlash]
    by_cases h : c = 47
    · simp [h]
    · simp only [h, if_false]
      rcases hq : splitSlash rest with _ | ⟨a, as⟩ <;> simp

theorem splitSlash_cons_ne {c : Nat} {r a : List Nat} {as : List (List Nat)}
    (hc : ¬c = 47) (h : splitSlash r = a :: as) :
    splitSlash (c :: r) = (c :: a) :: as := by
  simp [splitSlash, hc, h]

theorem splitSlash_slash (r : List Nat) :
    splitSlash (47 :: r) = [] :: splitSlash r := by
  simp [splitSlash]

theorem noslash_splitSlash (s : List Nat) :
    ∀ seg ∈ splitSlash s, (47 : Nat) ∉ seg := by
  induction s with
  | nil =>
    intro seg hseg
    simp [splitSlash] at hseg
    simp [hseg]
  | cons c rest ih =>
    by_cases hc : c = 47
    · subst hc
      rw [splitSlash_slash]
      intro seg hseg
      rcases List.mem_cons.mp hseg with h | h
      · simp [h]
      · exact ih seg h
    · rcases hq : splitSlash rest with _ | ⟨a, as⟩
      · exact absurd hq (splitSlash_ne_nil rest)
      · rw [splitSlash_cons_ne hc hq]
        intro seg hseg
        rcases List.mem_cons.mp hseg with h | h
        · subst h
          intro hmem
          rcases List.mem_cons.mp hmem with h | h
          · exact hc h.symm
          · exact ih a (by simp [hq]) h
        · exact ih seg (by simp [hq, h])

theorem inert_pct_append (a b : List Nat) (ha : inert_pct a = true)
    (hb : inert_pct b = true) : inert_pct (a ++ b) = true := by
  induction a using inert_pct.induct with
  | case1 => simpa using hb
  | case2 x y rest2 ih =>
    rw [inert_pct_triple] at ha
    simp only [Bool.and_eq_true] at ha
    rw [List.cons_append, List.cons_append, List.cons_append, inert_pct_triple]
    simp only [Bool.and_eq_true]
    exact ⟨ha.1, ih ha.2⟩
  | case3 rest hshape =>
    rcases rest with _ | ⟨x, rest'⟩
    · rw [inert_pct_short1] at ha; exact absurd ha (by simp)
    · rcases rest' with _ | ⟨y, rest''⟩
      · rw [inert_pct_short2] at ha; exact absurd ha (by simp)
      · exact absurd rfl (hshape x y rest'')
  | case4 c rest hc ih =>
    rw [inert_pct_cons_ne c rest hc] at ha
    rw [List.cons_append, inert_pct_cons_ne c _ hc]
    exact ih ha

theorem inert_pct_splitSlash (s : List Nat) (h : inert_pct s = true) :
    ∀ seg ∈ splitSlash s, inert_pct seg = true := by
  induction s using inert_pct.induct with
  | case1 =>
    intro seg hseg
    simp [splitSlash] at hseg
    simp [hseg, inert_pct]
  | case2 x y rest2 ih =>
    rw [inert_pct_triple] at h
    simp only [Bool.and_eq_true] at h
    obtain ⟨⟨⟨hx, hy⟩, hv⟩, hr⟩ := h
    have hx47 := isUpperHexN_ne_47 hx
    have hy47 := isUpperHexN_ne_47 hy
    rcases hq : splitSlash rest2 with _ | ⟨a, as⟩
    · exact absurd hq (splitSlash_ne_nil rest2)
    · have h1 : splitSlash (y :: rest2) = (y :: a) :: as :=
        splitSlash_cons_ne hy47 hq
      have h2 : splitSlash (x :: y :: rest2) = (x :: y :: a) :: as :=
        splitSlash_cons_ne hx47 h1
      have h3 : splitSlash (37 :: x :: y :: rest2) = (37 :: x :: y :: a) :: as :=
        splitSlash_cons_ne (by omega) h2
      rw [h3]
      intro seg hseg
      rcases List.mem_cons.mp hseg with hx1 | hx1
      · subst hx1
        rw [inert_pct_triple]
        simp only [Bool.and_eq_true]
        exact ⟨⟨⟨hx, hy⟩, hv⟩, ih hr a (by simp [hq])⟩
      · exact ih hr seg (by simp [hq, hx1])
  | case3 rest hshape =>
    rcases rest with _ | ⟨x, rest'⟩
    · rw [inert_pct_short1] at h; exact absurd h (by simp)
    · rcases rest' with _ | ⟨y, rest''⟩
      · rw [inert_pct_short2] at h; exact absurd h (by simp)
      · exact absurd rfl (hshape x y rest'')
  | case4 c rest hc ih =>
    rw [inert_pct_cons_ne c rest hc] at h
    by_cases h47 : c = 47
    · subst h47
      rw [splitSlash_slash]
      intro seg hseg
      rcases List.mem_cons.mp hseg with h1 | h1
      · simp [h1, inert_pct]
      · exact ih h seg h1
    · rcases hq : splitSlash rest with _ | ⟨a, as⟩
      · exact absurd hq (splitSlash_ne_nil rest)
      · rw [splitSlash_cons_ne h47 hq]
        intro seg hseg
        rcases List.mem_cons.mp hseg with h1 | h1
        · subst h1
          rw [inert_pct_cons_ne c a hc]
          exact ih h a (by simp [hq])
        · exact ih h seg (by simp [hq, h1])

theorem inert_pct_joinSlash (l : List (List Nat))
    (h : ∀ seg ∈ l, inert_pct seg = true) : inert_pct (joinSlash l) = true := by
  induction l with
  | nil => simp [joinSlash, inert_pct]
  | cons a rest ih =>
    rcases rest with _ | ⟨b, t⟩
    · simpa [joinSlash] using h a (by simp)
    · have hj : joinSlash (a :: b :: t) = a ++ 47 :: joinSlash (b :: t) := by
        simp [joinSlash]
      rw [hj]
      refine inert_pct_append _ _ (h a (by simp)) ?_
      rw [inert_pct_cons_ne 47 _ (by omega)]
      exact ih (fun seg hseg => h seg (by simp [hseg]))

theorem mem_foldl_dot_step (l : List (List Nat)) :
    ∀ (acc : List (List Nat)) (x : List Nat), x ∈ l.foldl dot_step acc →
      x ∈ acc ∨ x ∈ l := by
  induction l with
  | nil =>
    intro acc x hx
    simp at hx
    exact Or.inl hx
  | cons seg rest ih =>
    intro acc x hx
    simp only [List.foldl_cons] at hx
    rcases ih (dot_step acc seg) x hx with h | h
    · unfold dot_step drop_last_segment at h
      split_ifs at h with h1 h2 h3
      · exact Or.inl h
      · exact Or.inl h
      · exact Or.inl (List.mem_of_mem_dropLast h)
      · rcases List.mem_append.mp h with h | h
        · exact Or.inl h
        · simp at h
          exact Or.inr (by simp [h])
    · exact Or.inr (by simp [h])

theorem mem_remove_dot_segs_list (l : List (List Nat)) (x : List Nat)
    (hx : x ∈ remove_dot_segs_list l) : x ∈ l ∨ x = [] := by
  unfold remove_dot_segs_list at hx
  rcases hl : l.getLast? with _ | last
  · rw [hl] at hx
    dsimp only at hx
    rcases mem_foldl_dot_step l [] x hx with h | h
    · simp at h
    · exact Or.inl h
  · rw [hl] at hx
    dsimp only at hx
    by_cases hd : (is_dot_seg last || is_dot_dot_seg last) = true
    · rw [if_pos hd] at hx
      rcases List.mem_append.mp hx with h | h
      · rcases mem_foldl_dot_step l [] x h with h1 | h1
        · simp at h1
        · exact Or.inl h1
      · simp at h
        exact Or.inr h
    · rw [if_neg hd] at hx
      rcases mem_foldl_dot_step l [] x hx with h1 | h1
      · simp at h1
      · exact Or.inl h1

theorem foldl_dot_step_no_dots (l : List (List Nat))
    (hl : ∀ seg ∈ l, is_dot_seg seg = false ∧ is_dot_dot_seg seg = false) :
    ∀ acc, l.foldl dot_step acc = acc ++ l := by
  induction l with
  | nil => intro acc; simp
  | cons seg rest ih =>
    intro acc
    have hseg := hl seg (by simp)
    simp only [List.foldl_cons]
    have hstep : dot_step acc seg = acc ++ [seg] := by
      unfold dot_step
      rw [if_neg (by simp [hseg.1]), if_neg (by simp [hseg.2])]
    rw [hstep, ih (fun s hs => hl s (by simp [hs])) (acc ++ [seg])]
    simp

theorem no_dots_foldl_dot_step (l : List (List Nat)) :
    ∀ acc, (∀ x ∈ acc, is_dot_seg x = false ∧ is_dot_dot_seg x = false) →
      ∀ x ∈ l.foldl dot_step acc,
        is_dot_seg x = false ∧ is_dot_dot_seg x = false := by
  induction l with
  | nil =>
    intro acc hacc x hx
    simp at hx
    exact hacc x hx
  | cons seg rest ih =>
    intro acc hacc x hx
    simp only [List.foldl_cons] at hx
    refine ih (dot_step acc seg) ?_ x hx
    intro z hz
    unfold dot_step drop_last_segment at hz
    split_ifs at hz with h1 h2 h3
    · exact hacc z hz
    · exact hacc z hz
    · exact hacc z (List.mem_of_mem_dropLast hz)
    · rcases List.mem_append.mp hz with h | h
      · exact hacc z h
      · simp at h
        subst h
        constructor
        · by_contra hcc; simp at hcc; exact h1 hcc
        · by_contra hcc; simp at hcc; exact h2 hcc

theorem no_dots_remove_dot_segs_list (l : List (List Nat)) :
    ∀ x ∈ remove_dot_segs_list l,
      is_dot_seg x = false ∧ is_dot_dot_seg x = false := by
  intro x hx
  unfold remove_dot_segs_list at hx
  have hbase : ∀ z ∈ ([] : List (List Nat)),
      is_dot_seg z = false ∧ is_dot_dot_seg z = false := by simp
  rcases hl : l.getLast? with _ | last
  · rw [hl] at hx
    dsimp only at hx
    exact no_dots_foldl_dot_step l [] hbase x hx
  · rw [hl] at hx
    dsimp only at hx
    by_cases hd : (is_dot_seg last || is_dot_dot_seg last) = true
    · rw [if_pos hd] at hx
      rcases List.mem_append.mp hx with h | h
      · exact no_dots_foldl_dot_step l [] hbase x h
      · simp at h
        subst h
        exact ⟨by decide, by decide⟩
    · rw [if_neg hd] at hx
      exact no_dots_foldl_dot_step l [] hbase x hx

theorem remove_dot_segs_list_no_dots_id (l : List (List Nat))
    (hl : ∀ seg ∈ l, is_dot_seg seg = false ∧ is_dot_dot_seg seg = false) :
    remove_dot_segs_list l = l := by
  unfold remove_dot_segs_list
  rcases hlast : l.getLast? with _ | last
  · dsimp only
    rw [foldl_dot_step_no_dots l hl []]
    simp
  · dsimp only
    rw [foldl_dot_step_no_dots l hl []]
    simp only [List.nil_append]
    have hmem : last ∈ l := by
      have hopt : last ∈ l.getLast? := by simp [hlast, Option.mem_def]
      rcases List.mem_getLast?_eq_getLast hopt with ⟨hne, heq⟩
      rw [heq]
      exact List.getLast_mem hne
    have := hl last hmem
    rw [if_neg (by simp [this.1, this.2])]

theorem remove_dot_segs_list_ne_nil (l : List (List Nat)) (hl : l ≠ []) :
    remove_dot_segs_list l ≠ [] := by
  unfold remove_dot_segs_list
  rcases List.eq_nil_or_concat l with h | ⟨l', last, h⟩
  · exact absurd h hl
  · subst h
    simp only [List.concat_eq_append]
    rw [List.getLast?_concat]
    dsimp only
    by_cases hd : (is_dot_seg last || is_dot_dot_seg last) = true
    · rw [if_pos hd]
      simp
    · rw [if_neg hd]
      rw [List.foldl_append]
      simp only [List.foldl_cons, List.foldl_nil]
      have : dot_step (List.foldl dot_step [] l') last =
          List.foldl dot_step [] l' ++ [last] := by
        unfold dot_step
        rw [if_neg (by simp at hd ⊢; simp [hd.1]),
          if_neg (by simp at hd ⊢; simp [hd.2])]
      rw [this]
      simp

theorem splitSlash_noslash_singleton (a : List Nat) (h : (47 : Nat) ∉ a) :
    splitSlash a = [a] := by
  induction a with
  | nil => simp [splitSlash]
  | cons c r ih =>
    have hc : ¬c = 47 := by
      intro hc
      exact h (by simp [hc])
    have hr := ih (fun hm => h (by simp [hm]))
    exact splitSlash_cons_ne hc hr

theorem splitSlash_append_noslash (a : List Nat) (h : (47 : Nat) ∉ a)
    {s : List Nat} {x : List Nat} {xs : List (List Nat)}
    (hs : splitSlash s = x :: xs) :
    splitSlash (a ++ s) = (a ++ x) :: xs := by
  induction a with
  | nil => simpa using hs
  | cons c r ih =>
    have hc : ¬c = 47 := by
      intro hc
      exact h (by simp [hc])
    have hr := ih (fun hm => h (by simp [hm]))
    rw [List.cons_append]
    rw [splitSlash_cons_ne hc hr]
    simp

theorem splitSlash_joinSlash (l : List (List Nat)) (hl : l ≠ [])
    (hns : ∀ seg ∈ l, (47 : Nat) ∉ seg) :
    splitSlash (joinSlash l) = l := by
  induction l with
  | nil => exact absurd rfl hl
  | cons a rest ih =>
    rcases rest with _ | ⟨b, t⟩
    · simp only [joinSlash]
      exact splitSlash_noslash_singleton a (hns a (by simp))
    · have hj : joinSlash (a :: b :: t) = a ++ 47 :: joinSlash (b :: t) := by
        simp [joinSlash]
      rw [hj]
      have hrec : splitSlash (joinSlash (b :: t)) = b :: t :=
        ih (by simp) (fun seg hseg => hns seg (by simp [List.mem_cons.mp hseg]))
      have hsl : splitSlash (47 :: joinSlash (b :: t)) =
          [] :: (b :: t) := by
        rw [splitSlash_slash, hrec]
      have := splitSlash_append_noslash a (hns a (by simp)) hsl
      simpa using this

theorem remove_dot_segments_idem (t : List Nat) :
    remove_dot_segments (remove_dot_segments t) = remove_dot_segments t := by
  unfold remove_dot_segments
  set out := remove_dot_segs_list (splitSlash t) with hout
  have hne : out ≠ [] :=
    remove_dot_segs_list_ne_nil (splitSlash t) (splitSlash_ne_nil t)
  have hns : ∀ seg ∈ out, (47 : Nat) ∉ seg := by
    intro seg hseg
    rcases mem_remove_dot_segs_list (splitSlash t) seg hseg with h | h
    · exact noslash_splitSlash t seg h
    · simp [h]
  rw [splitSlash_joinSlash out hne hns]
  rw [remove_dot_segs_list_no_dots_id out
    (no_dots_remove_dot_segs_list (splitSlash t))]

theorem inert_pct_remove_dot_segments (t : List Nat)
    (h : inert_pct t = true) :
    inert_pct (remove_dot_segments t) = true := by
  unfold remove_dot_segments
  refine inert_pct_joinSlash _ ?_
  intro seg hseg
  rcases mem_remove_dot_segs_list (splitSlash t) seg hseg with h1 | h1
  · exact inert_pct_splitSlash t h seg h1
  · simp [h1, inert_pct]

theorem plain_component_stable (t : List Nat) (h : ok_pct t = true) :
    decode_unreserved (pct_upper (decode_unreserved (pct_upper t))) =
      decode_unreserved (pct_upper t) := by
  have hin : inert_pct (decode_unreserved (pct_upper t)) = true :=
    inert_pct_decode _ (wf_pct_pct_upper t h)
  rw [pct_upper_of_inert _ hin, decode_unreserved_of_inert _ hin]

theorem host_component_stable (s : List Nat) (h : host_ok s = true) :
    decode_unreserved (pct_upper (lower_str
      (decode_unreserved (pct_upper (lower_str s))))) =
      decode_unreserved (pct_upper (lower_str s)) := by
  have hin : host_inert (decode_unreserved (pct_upper (lower_str s))) = true :=
    host_inert_decode _ (host_wf_pct_upper _ (host_low_ok_lower s h))
  exact host_pass2_id _ hin

theorem path_component_stable (p : List Nat) (h : ok_pct p = true) :
    normalize_path_segments (decode_unreserved (pct_upper
      (normalize_path_segments (decode_unreserved (pct_upper p))))) =
      normalize_path_segments (decode_unreserved (pct_upper p)) := by
  have hin : inert_pct (decode_unreserved (pct_upper p)) = true :=
    inert_pct_decode _ (wf_pct_pct_upper p h)
  have hin2 : inert_pct (normalize_path_segments
      (decode_unreserved (pct_upper p))) = true :=
    inert_pct_remove_dot_segments _ hin
  rw [pct_upper_of_inert _ hin2, decode_unreserved_of_inert _ hin2]
  unfold normalize_path_segments
  exact remove_dot_segments_idem _

/-- C5 as amended: normalization is idempotent on every URI whose
components are properly percent-encoded (every `%` begins a valid hex
triple) and whose scheme and host contain no percent triple encoding an
uppercase ASCII letter. -/
theorem C5_normalize_idempotent_on_wf :
    ∀ (level : uri_comparison_level) (u : uri_parts),
      uri_pct_ok u = true →
      uri_normalize level (uri_normalize level u) = uri_normalize level u := by
  intro level u h
  cases level with
  | string_based => rfl
  | syntax_based =>
    rcases u with ⟨sc, ui, ho, po, pa, qu, fr⟩
    simp only [uri_pct_ok, Bool.and_eq_true] at h
    obtain ⟨⟨⟨⟨⟨⟨hsc, hui⟩, hho⟩, hpo⟩, hpa⟩, hqu⟩, hfr⟩ := h
    simp only [uri_normalize, uri_parts.mk.injEq]
    refine ⟨?_, ?_, ?_, ?_, ?_, ?_, ?_⟩
    · rcases sc with _ | s
      · rfl
      · simp only [Option.map_some', Option.some.injEq]
        exact host_component_stable s (by simpa [opt_ok] using hsc)
    · rcases ui with _ | s
      · rfl
      · simp only [Option.map_some', Option.some.injEq]
        exact plain_component_stable s (by simpa [opt_ok] using hui)
    · rcases ho with _ | s
      · rfl
      · simp only [Option.map_some', Option.some.injEq]
        exact host_component_stable s (by simpa [opt_ok] using hho)
    · rcases po with _ | s
      · rfl
      · simp only [Option.map_some', Option.some.injEq]
        exact plain_component_stable s (by simpa [opt_ok] using hpo)
    · rcases pa with _ | s
      · rfl
      · simp only [Option.map_some', Option.some.injEq]
        exact path_component_stable s (by simpa [opt_ok] using hpa)
    · rcases qu with _ | s
      · rfl
      · simp only [Option.map_some', Option.some.injEq]
        exact plain_component_stable s (by simpa [opt_ok] using hqu)
    · rcases fr with _ | s
      · rfl
      · simp only [Option.map_some', Option.some.injEq]
        exact plain_component_stable s (by simpa [opt_ok] using hfr)

/-- Counterexample to C5: for `http://ex%41mple.com/`, the first
normalization pass decodes `%41` to the uppercase `A` after the host has
been lowercased, and the second pass lowercases that `A`, so normalizing
twice differs from normalizing once. -/
theorem C5_normalize_not_idempotent :
    uri_normalize .syntax_based (uri_normalize .syntax_based c5_example) ≠
      uri_normalize .syntax_based c5_example := by
  decide

/-- Witness for C5 (amended): a representative well-formed URI on which
normalization is idempotent. -/
theorem C5_normalize_idempotent_on_wf_witness :
    uri_normalize .syntax_based (uri_normalize .syntax_based c5_witness_uri) =
      uri_normalize .syntax_based c5_witness_uri :=
  C5_normalize_idempotent_on_wf .syntax_based c5_witness_uri (by decide)
